import Mathlib

/-!
Verification development for the `wordguess` terminal word-guessing game.

The definitions below are a shallow embedding of `wordguess.py`:
* the guess scorer is the two-pass matching block of `WordGuess._play_round`
  (exact pass, then partial pass over a blanked working copy of the secret);
* the dictionary loader is the line loop of `WordGuess.__init__`, including
  the (buggy) `try/except UnicodeDecodeError: pass` decode handling, modelled
  by threading the Python local variable `word` through the state;
* the cumulative letter-status bookkeeping is the `info_letters` update in
  `WordGuess._play_round`.

Python machine details are modelled as follows: strings become `List Char`,
Python `set`s become duplicate-free lists, dictionaries become functions into
`Option`, a raw input line that fails to decode becomes `none`, and a raised
exception becomes the `Except.error` branch.
-/

namespace WordGuess

/-- Per-position classification of a guessed letter, mirroring the colour
pair chosen for the position in `_play_round`: `_MISS_PAIR`, `_PARTIAL_PAIR`
or `_EXACT_PAIR`. -/
inductive Pair where
  | miss
  | partialMatch
  | exact
  deriving DecidableEq, Repr

section Scorer

variable {α : Type} [DecidableEq α]

/-- Embedding of Python `list.index` returning an `Option` instead of raising
`ValueError`: the first index whose element equals `x`. -/
def pyIndex (x : α) : List α → Option Nat
  | [] => none
  | a :: rest => if a = x then some 0 else (pyIndex x rest).map Nat.succ

/-- Pass 1 working copy `letters = list(word)` with exact matches blanked:
position `i` becomes `none` exactly when `guess[i] == word[i]`
(`letters[i] = None` in `_play_round`). -/
def pass1Letters (secret guess : List α) : List (Option α) :=
  List.zipWith (fun s g => if g = s then none else some s) secret guess

/-- Pass 1 result: `pairs[i]` is Exact when `guess[i] == word[i]`, and keeps
the initial default `_MISS_PAIR` otherwise. -/
def pass1Pairs (secret guess : List α) : List Pair :=
  List.zipWith (fun s g => if g = s then Pair.exact else Pair.miss) secret guess

/-- Pass 2 of `_play_round`: walk the positions left to right (here the list
of `(guess[i], pairs[i])` entries), skip positions already marked Exact, and
otherwise run `letters.index(guess[i])`; on success the position becomes
Partial and the found slot is blanked (`letters[index] = None`), on
`ValueError` the entry is left as it was. -/
def pass2 (letters : List (Option α)) : List (α × Pair) → List Pair
  | [] => []
  | (g, p) :: rest =>
    if p = Pair.exact then
      p :: pass2 letters rest
    else
      match pyIndex (some g) letters with
      | some idx => Pair.partialMatch :: pass2 (letters.set idx none) rest
      | none => p :: pass2 letters rest

/-- The guess scorer of `_play_round`: pass 1 builds the blanked working copy
and the Exact/Miss defaults, pass 2 upgrades unclaimed letters to Partial. -/
def score (secret guess : List α) : List Pair :=
  pass2 (pass1Letters secret guess) (guess.zip (pass1Pairs secret guess))

/-- Modelled from the spec's words (section 4.2, pass 2): remove (null out)
the first slot of the working copy holding `x`, or report that `x` does not
occur in the remaining working copy. -/
def removeFirstSlot (x : α) : List (Option α) → Option (List (Option α))
  | [] => none
  | a :: rest =>
    if a = some x then some (none :: rest)
    else (removeFirstSlot x rest).map (a :: ·)

/-- Modelled from the spec's words (section 4.2, pass 2): for each position
not already marked Exact, search the remaining working copy for the guessed
letter; if found mark Partial and null out that slot, if not found leave the
position as Miss. -/
def specPass2 (working : List (Option α)) : List (α × Pair) → List Pair
  | [] => []
  | (g, p) :: rest =>
    if p = Pair.exact then
      Pair.exact :: specPass2 working rest
    else
      match removeFirstSlot g working with
      | some working2 => Pair.partialMatch :: specPass2 working2 rest
      | none => Pair.miss :: specPass2 working rest

/-- Modelled from the spec's words (section 4.2): pass 1 marks position `i`
Exact exactly when `guess[i] == secret[i]`, nulling that secret slot in the
working copy and defaulting every other position to Miss, then pass 2 runs
left to right over the positions. -/
def specScore (secret guess : List α) : List Pair :=
  specPass2 (pass1Letters secret guess) (guess.zip (pass1Pairs secret guess))

end Scorer

section Loader

/-- Embedding of Python `str.strip`: drop whitespace from both ends. -/
def pyStrip (w : List Char) : List Char :=
  ((w.dropWhile Char.isWhitespace).reverse.dropWhile Char.isWhitespace).reverse

/-- Embedding of Python `str.upper`, applied per character (`Char.toUpper`
maps the ASCII range exercised by the word lists). -/
def pyUpper (w : List Char) : List Char := w.map Char.toUpper

/-- The normalisation `__init__` applies to every input line:
`word = word.strip(); WORD = word.upper()`. -/
def normalize (w : List Char) : List Char := pyUpper (pyStrip w)

/-- Embedding of Python `str.isalpha`: nonempty and all characters
alphabetic. -/
def pyIsAlpha (w : List Char) : Bool := !w.isEmpty && w.all Char.isAlpha

/-- Embedding of `WordGuess._rot13upper`: uppercase the word, then rotate
each character 13 letter positions via
`chr((ord(c) - ord('A') + 13) % 26 + ord('A'))`. -/
def rot13upper (w : List Char) : List Char :=
  (pyUpper w).map (fun c => Char.ofNat (((c.toNat : Int) - 65 + 13) % 26 + 65).toNat)

/-- Embedding of `WordGuess._OFFENSIVE_WORDS`, the rot13'd blocklist. -/
def offensiveWords : List (List Char) :=
  (["NANY", "NAHF", "NEFR", "NFF", "NFFUNG", "OYNPXONYY", "OYNPXYVFG",
    "OVGPU", "OYBJWBO", "OBBOF", "OHTTRE", "PUVAX", "PUVAXL", "PYVG",
    "PYVGBEVF", "PYVGF", "PBPX", "PBBA", "PBPXFHPXRE", "PENC", "PHZ",
    "PHZZVAT", "PHZF", "PHAAVYVATHF", "PHAG", "PHAGRQ", "PHAGF", "QVPX",
    "QVPXF", "QBTTVAT", "QBAT", "QBBPU", "RWNPHYNGR", "RWNPHYNGRQ",
    "RWNPHYNGRF", "RWNPHYNGVAT", "RWNPHYNGVATF", "RWNPHYNGVBA", "SNT",
    "SNTTBG", "SRYPU", "SRYPUVAT", "SRYYNGR", "SRYYNGVB", "SVFGVAT", "SHPX",
    "SHPXRQ", "SHPXRE", "SHPXVAT", "SHPXF", "TNATONAT", "TNLYBEQ", "TLC",
    "TLCCRQ", "UBZB", "UBEAL", "VAPRFG", "WNC", "WVMM", "ZNFGHEONGR", "ANMV",
    "ARTEB", "ARTEBF", "AVTTRE", "AVCCYR", "AVCCYRF", "AVC", "BETNFZ",
    "BETNFZF", "BETL", "CNRQB", "CRAVF", "CVFF", "CBBS", "CBEA", "CBEAB",
    "CEVPX", "CEVPXF", "CHOR", "CHORF", "CHFFL", "CHFFVRF", "DHRRE", "DHRREF",
    "DHVZ", "ENCR", "ENCRF", "ENCVAT", "ENCVFG", "FPEBGHZ", "FRZRA", "FRK",
    "FRKL", "FUNT", "FUNTTVAT", "FUVG", "FUVGF", "FUVGGL", "FUNG", "FYNIR",
    "FYHG", "FYHGF", "FBQBZVMR", "FBQBZBL", "FCHAX", "GVGF", "GVGGVRF",
    "GVGGL", "GBCYRFF", "GENAAL", "GJNG", "HCFXVEG", "INTVAN", "IHYIN",
    "IVETVA", "JNAX"] : List String).map String.toList

/-- Python slice `w[-n:]`. -/
def lastChars (n : Nat) (w : List Char) : List Char := w.drop (w.length - n)

/-- Python slice `w[:-n]`. -/
def dropLastChars (n : Nat) (w : List Char) : List Char := w.take (w.length - n)

/-- The eligibility filter of `__init__` on the uppercase form of a line:
not blocklisted (after rot13), purely alphabetic, of the target length,
plain A-Z unless accented words are allowed, and not looking like an
inflected form of a word already in `self._all_words`. -/
def eligible (len : Nat) (accented : Bool) (allWords : List (List Char)) (w : List Char) : Bool :=
     !(offensiveWords.contains (rot13upper w))
  && pyIsAlpha w
  && (w.length == len)
  && (accented || w.all (fun c => decide ('A' ≤ c) && decide (c ≤ 'Z')))
  && !([['D'], ['R'], ['S'], ['Y']].contains (lastChars 1 w)
        && allWords.contains (dropLastChars 1 w))
  && !([['E', 'D'], ['E', 'R'], ['E', 'S'], ['L', 'Y']].contains (lastChars 2 w)
        && allWords.contains (dropLastChars 2 w))
  && !([['I', 'E', 'S'], ['I', 'E', 'D'], ['I', 'E', 'R'], ['I', 'N', 'G']].contains (lastChars 3 w)
        && allWords.contains (dropLastChars 3 w ++ ['Y']))
  && !((lastChars 3 w == ['I', 'N', 'G'])
        && (allWords.contains (dropLastChars 3 w)
            || allWords.contains (dropLastChars 3 w ++ ['E'])))

/-- Model of Python `set.add` on a duplicate-free list. -/
def insertW (w : List Char) (s : List (List Char)) : List (List Char) :=
  if s.contains w then s else w :: s

/-- Model of Python `set.update(word)` on the duplicate-free list of known
letters. -/
def insertChars (cs : List Char) (s : List Char) : List Char :=
  cs.foldl (fun acc c => if acc.contains c then acc else c :: acc) s

/-- The loader state of `__init__`: the Python local variable `word`
(`none` models "not yet assigned"), `self._all_words`, `self._words`
(the playable pool, in append order) and `self._letters`. -/
structure LoadState where
  word : Option (List Char)
  allWords : List (List Char)
  words : List (List Char)
  letters : List Char
  deriving DecidableEq, Repr

/-- The eligibility check and pool append at the end of the loop body of
`__init__`: when the uppercase word is eligible it is appended to
`self._words` and its letters join `self._letters`. -/
def checkAndAdd (len : Nat) (accented : Bool) (st : LoadState)
    (allW : List (List Char)) (w : List Char) : LoadState :=
  if eligible len accented allW w then
    { word := some w, allWords := allW, words := st.words ++ [w],
      letters := insertChars w st.letters }
  else
    { word := some w, allWords := allW, words := st.words, letters := st.letters }

/-- The proper-name and abbreviation test of `__init__`:
`len(word) > 0 and 'A' <= word[0] <= 'Z'` on the original-case word. -/
def pyIsCap : List Char → Bool
  | c :: _ => decide ('A' ≤ c) && decide (c ≤ 'Z')
  | [] => false

/-- One iteration of the loop body of `__init__` on the in-scope value `w`
of the Python variable `word` (after the try/except): strip, uppercase,
record the uppercase form in `self._all_words`, skip capitalised entries
(proper names and abbreviations, the `continue` leaving the Python `word`
variable holding the stripped original-case line), and otherwise run the
eligibility check on the uppercase form. -/
def processWord (len : Nat) (accented : Bool) (st : LoadState) (w : List Char) : LoadState :=
  if pyIsCap (pyStrip w) then
    { word := some (pyStrip w), allWords := insertW (normalize w) st.allWords,
      words := st.words, letters := st.letters }
  else
    checkAndAdd len accented st (insertW (normalize w) st.allWords) (normalize w)

/-- Failure modes of the load: the `ValueError` raised for an empty pool,
and the `UnboundLocalError` the decode-failure path can raise because the
`except UnicodeDecodeError: pass` clause leaves `word` holding its previous
value (unassigned on the first line). -/
inductive LoadError where
  | nameError
  | emptyPool
  deriving DecidableEq, Repr

/-- One line of the load loop. A decodable line (`some s`) binds `word` and
runs the body; an undecodable line leaves `word` untouched (`pass`), so the
body reruns on the stale value, or raises `UnboundLocalError` when `word`
has never been assigned. -/
def lineStep (len : Nat) (accented : Bool) (st : LoadState) (line : Option (List Char)) :
    Except LoadError LoadState :=
  match line with
  | some s => .ok (processWord len accented st s)
  | none =>
    match st.word with
    | some w => .ok (processWord len accented st w)
    | none => .error .nameError

/-- The full line loop of `__init__` over the raw dictionary. -/
def processLines (len : Nat) (accented : Bool) :
    LoadState → List (Option (List Char)) → Except LoadError LoadState
  | st, [] => .ok st
  | st, l :: ls =>
    match lineStep len accented st l with
    | .ok st2 => processLines len accented st2 ls
    | .error e => .error e

/-- The loader state before the first line. -/
def initState : LoadState := ⟨none, [], [], []⟩

/-- The whole dictionary load of `__init__`: run the line loop, then raise
`ValueError` if no word survived filtering. -/
def loadWords (len : Nat) (accented : Bool) (lines : List (Option (List Char))) :
    Except LoadError LoadState :=
  match processLines len accented initState lines with
  | .error e => .error e
  | .ok st => if st.words.isEmpty then .error .emptyPool else .ok st

/-- Loader state reached on the one-line dictionary "apple" with target
length 5 (used as a concrete instantiation below). -/
def appleState : LoadState :=
  { word := some ("APPLE".toList), allWords := [("APPLE".toList)],
    words := [("APPLE".toList)], letters := ['E', 'L', 'P', 'A'] }

/-- Loader state reached after the one-line dictionary "cat" with target
length 4 (used as a concrete instantiation below). -/
def catState : LoadState :=
  { word := some ("CAT".toList), allWords := [("CAT".toList)],
    words := [], letters := [] }

/-- Loader state reached on the dictionary "cats", "cat" with target
length 4 (used as a concrete instantiation below). -/
def catsState : LoadState :=
  { word := some ("CAT".toList), allWords := [("CAT".toList), ("CATS".toList)],
    words := [("CATS".toList)], letters := ['S', 'T', 'A', 'C'] }

end Loader

section InfoLetters

variable {α : Type} [DecidableEq α]

/-- One `info_letters` update of `_play_round` for a scored position with
guessed letter `g` and classification `p`: the letter takes the new
classification when it is Exact, when it is Partial and the letter is not
already recorded Exact, or when it is Miss and the letter is not recorded
at all. -/
def infoUpdate (info : α → Option Pair) (g : α) (p : Pair) : α → Option Pair :=
  if p = Pair.exact ∨
     (p = Pair.partialMatch ∧ info g ≠ some Pair.exact) ∨
     (p = Pair.miss ∧ info g = none) then
    fun x => if x = g then some p else info x
  else
    info

/-- Precedence of a remembered letter status: Exact > Partial > Miss >
unknown. -/
def infoRank : Option Pair → Nat
  | none => 0
  | some Pair.miss => 1
  | some Pair.partialMatch => 2
  | some Pair.exact => 3

/-- The cumulative `info_letters` map after a sequence of scored positions
(each a guessed letter together with its classification). -/
def infoRuns (info : α → Option Pair) (updates : List (α × Pair)) : α → Option Pair :=
  updates.foldl (fun m gp => infoUpdate m gp.1 gp.2) info

end InfoLetters

section ScorerTheorems

variable {α : Type} [DecidableEq α]

/-- Pass 2 rewrites classifications in place, so it preserves the number of
positions. -/
theorem pass2_length (letters : List (Option α)) (gps : List (α × Pair)) :
    (pass2 letters gps).length = gps.length := by
  induction gps generalizing letters with
  | nil => rfl
  | cons gp rest ih =>
    obtain ⟨g, p⟩ := gp
    by_cases he : p = Pair.exact
    · simp [pass2, he, ih]
    · simp only [pass2, if_neg he]
      cases hpi : pyIndex (some g) letters with
      | none => simp [ih]
      | some idx => simp [ih]

/-- Pass 1 only ever produces Exact or Miss. -/
theorem pass1Pairs_exact_or_miss (secret guess : List α) :
    ∀ p ∈ pass1Pairs secret guess, p = Pair.exact ∨ p = Pair.miss := by
  induction secret generalizing guess with
  | nil => intro p hp; simp [pass1Pairs] at hp
  | cons s ss ih =>
    cases guess with
    | nil => intro p hp; simp [pass1Pairs] at hp
    | cons g gs =>
      intro p hp
      simp only [pass1Pairs, List.zipWith_cons_cons, List.mem_cons] at hp
      rcases hp with h | h
      · subst h
        by_cases hg : g = s <;> simp [hg]
      · exact ih gs p h

/-- Python's `letters.index` followed by `letters[index] = None` blanks the
first slot holding the sought value, which is what the spec's
`removeFirstSlot` does. -/
theorem pyIndex_set_eq_removeFirst (x : α) (l : List (Option α)) :
    (pyIndex (some x) l).map (fun i => l.set i none) = removeFirstSlot x l := by
  induction l with
  | nil => rfl
  | cons a rest ih =>
    by_cases h : a = some x
    · simp [pyIndex, removeFirstSlot, h]
    · simp only [pyIndex, removeFirstSlot, if_neg h]
      rw [← ih]
      cases hpi : pyIndex (some x) rest with
      | none => simp
      | some j => simp

/-- On inputs whose pre-classification is only Exact or Miss (which is what
pass 1 hands over), the code's pass 2 and the spec's pass 2 agree. -/
theorem pass2_eq_specPass2 (letters : List (Option α)) (gps : List (α × Pair))
    (hp : ∀ x ∈ gps, x.2 = Pair.exact ∨ x.2 = Pair.miss) :
    pass2 letters gps = specPass2 letters gps := by
  induction gps generalizing letters with
  | nil => rfl
  | cons gp rest ih =>
    obtain ⟨g, p⟩ := gp
    have hrest : ∀ x ∈ rest, x.2 = Pair.exact ∨ x.2 = Pair.miss :=
      fun x hx => hp x (List.mem_cons_of_mem _ hx)
    by_cases he : p = Pair.exact
    · subst he
      simp [pass2, specPass2, ih _ hrest]
    · have hm : p = Pair.miss := by
        rcases hp (g, p) (List.mem_cons_self _ _) with h | h
        · exact absurd h he
        · exact h
      subst hm
      simp only [pass2, specPass2, if_neg he]
      rw [← pyIndex_set_eq_removeFirst]
      cases hpi : pyIndex (some g) letters with
      | none => simp [ih _ hrest]
      | some idx => simp [ih _ hrest]

/-- C1: for every secret word and guess of equal length, the scorer of
`_play_round` follows the spec's two-pass algorithm: pass 1 marks position
`i` Exact exactly when `guess[i] = secret[i]` and nulls that slot of the
working copy, and pass 2, left to right over the positions not marked
Exact, marks a position Partial when its letter occurs in the remaining
working copy (nulling the first such occurrence) and leaves it Miss
otherwise. -/
theorem score_follows_spec (secret guess : List α)
    (h : secret.length = guess.length) :
    score secret guess = specScore secret guess := by
  unfold score specScore
  apply pass2_eq_specPass2
  intro x hx
  obtain ⟨a, b⟩ := x
  exact pass1Pairs_exact_or_miss secret guess b (List.of_mem_zip hx).2

/-- Witness for C1 at secret "HOUSE", guess "PRINT". -/
theorem score_follows_spec_witness :
    score ("HOUSE".toList) ("PRINT".toList) = specScore ("HOUSE".toList) ("PRINT".toList) :=
  score_follows_spec ("HOUSE".toList) ("PRINT".toList) rfl

/-- C2: for every secret and guess of equal length, the scorer returns one
classification per position of the word, and each classification is Miss,
Partial or Exact. -/
theorem score_length_and_classes (secret guess : List α)
    (h : secret.length = guess.length) :
    (score secret guess).length = secret.length ∧
      ∀ p ∈ score secret guess, p = Pair.miss ∨ p = Pair.partialMatch ∨ p = Pair.exact := by
  constructor
  · unfold score
    rw [pass2_length, List.length_zip]
    unfold pass1Pairs
    rw [List.length_zipWith]
    omega
  · intro p hp
    rcases p <;> simp

/-- Witness for C2 at secret "CRANE", guess "CRANE". -/
theorem score_length_and_classes_witness :
    (score ("CRANE".toList) ("CRANE".toList)).length = ("CRANE".toList).length :=
  (score_length_and_classes ("CRANE".toList) ("CRANE".toList) rfl).1

/-- C5: on secret "ALLOY" and guess "LOLLY" the scorer produces exactly
Partial, Partial, Exact, Miss, Exact. -/
theorem score_alloy_lolly :
    score ("ALLOY".toList) ("LOLLY".toList) =
      [Pair.partialMatch, Pair.partialMatch, Pair.exact, Pair.miss, Pair.exact] := by
  rfl

end ScorerTheorems

section CountTheorems

variable {α : Type} [DecidableEq α]

/-- Blanking the slot found by `pyIndex` removes exactly one occurrence of
the sought value from the working copy. -/
theorem count_set_none_self (x : α) (l : List (Option α)) (i : Nat)
    (h : pyIndex (some x) l = some i) :
    (l.set i none).count (some x) + 1 = l.count (some x) := by
  induction l generalizing i with
  | nil => simp [pyIndex] at h
  | cons a rest ih =>
    by_cases ha : a = some x
    · rw [pyIndex, if_pos ha] at h
      injection h with h0
      subst h0
      subst ha
      simp [List.count_cons]
    · rw [pyIndex, if_neg ha] at h
      cases hpi : pyIndex (some x) rest with
      | none => rw [hpi] at h; simp at h
      | some j =>
        rw [hpi] at h
        injection h with h0
        subst h0
        have := ih j hpi
        simp only [List.set_cons_succ, List.count_cons]
        omega

/-- Blanking the slot found by `pyIndex` leaves the count of every other
value of the working copy unchanged. -/
theorem count_set_none_other (x c : α) (l : List (Option α)) (i : Nat)
    (h : pyIndex (some x) l = some i) (hxc : x ≠ c) :
    (l.set i none).count (some c) = l.count (some c) := by
  induction l generalizing i with
  | nil => simp [pyIndex] at h
  | cons a rest ih =>
    by_cases ha : a = some x
    · rw [pyIndex, if_pos ha] at h
      injection h with h0
      subst h0
      subst ha
      simp [List.count_cons, hxc]
    · rw [pyIndex, if_neg ha] at h
      cases hpi : pyIndex (some x) rest with
      | none => rw [hpi] at h; simp at h
      | some j =>
        rw [hpi] at h
        injection h with h0
        subst h0
        have := ih j hpi
        simp only [List.set_cons_succ, List.count_cons]
        omega

/-- Budget bound for pass 2: every position it marks Exact-or-Partial is
either already Exact from pass 1 or consumes one matching slot of the
working copy. -/
theorem pass2_hit_bound (c : α) (letters : List (Option α)) (gps : List (α × Pair))
    (hp : ∀ x ∈ gps, x.2 ≠ Pair.partialMatch) :
    (gps.zip (pass2 letters gps)).countP (fun y => decide (y.1.1 = c ∧ y.2 ≠ Pair.miss)) ≤
      gps.countP (fun x => decide (x.1 = c ∧ x.2 = Pair.exact)) + letters.count (some c) := by
  induction gps generalizing letters with
  | nil => simp [pass2]
  | cons gp rest ih =>
    obtain ⟨g, p⟩ := gp
    have hrest : ∀ x ∈ rest, x.2 ≠ Pair.partialMatch :=
      fun x hx => hp x (List.mem_cons_of_mem _ hx)
    by_cases he : p = Pair.exact
    · subst he
      have hih := ih letters hrest
      simp only [Bool.decide_and, decide_not] at hih
      by_cases hg : g = c <;>
        simp [pass2, List.zip_cons_cons, List.countP_cons, hg] <;> omega
    · have hm : p = Pair.miss := by
        have := hp (g, p) (List.mem_cons_self _ _)
        rcases p <;> simp_all
      subst hm
      cases hpi : pyIndex (some g) letters with
      | some idx =>
        have hih := ih (letters.set idx none) hrest
        simp only [Bool.decide_and, decide_not] at hih
        by_cases hg : g = c
        · subst hg
          have hcount := count_set_none_self g letters idx hpi
          simp [pass2, hpi, List.zip_cons_cons, List.countP_cons]
          omega
        · have hcount := count_set_none_other g c letters idx hpi hg
          simp [pass2, hpi, List.zip_cons_cons, List.countP_cons, hg]
          omega
      | none =>
        have hih := ih letters hrest
        simp only [Bool.decide_and, decide_not] at hih
        simp [pass2, hpi, List.zip_cons_cons, List.countP_cons]
        omega

/-- Budget accounting for pass 1: the Exact positions for a letter plus the
surviving working-copy slots for that letter never exceed its occurrences
in the secret. -/
theorem pass1_count_bound (c : α) (secret guess : List α) :
    (guess.zip (pass1Pairs secret guess)).countP (fun x => decide (x.1 = c ∧ x.2 = Pair.exact))
        + (pass1Letters secret guess).count (some c) ≤ secret.count c := by
  induction secret generalizing guess with
  | nil => simp [pass1Pairs, pass1Letters]
  | cons s ss ih =>
    cases guess with
    | nil => simp [pass1Pairs, pass1Letters]
    | cons g gs =>
      have hih := ih gs
      simp only [pass1Pairs, pass1Letters, Bool.decide_and] at hih
      by_cases hgs : g = s
      · subst hgs
        by_cases hgc : g = c <;>
          simp [pass1Pairs, pass1Letters, List.zipWith_cons_cons, List.zip_cons_cons,
            List.countP_cons, List.count_cons, hgc] <;> omega
      · by_cases hsc : s = c
        · subst hsc
          by_cases hgc : g = s <;>
            simp [pass1Pairs, pass1Letters, List.zipWith_cons_cons, List.zip_cons_cons,
              List.countP_cons, List.count_cons, hgs, hgc] <;> omega
        · have hcs : ¬(c = s) := fun hh => hsc hh.symm
          by_cases hgc : g = c <;>
            simp [pass1Pairs, pass1Letters, List.zipWith_cons_cons, List.zip_cons_cons,
              List.countP_cons, List.count_cons, hgs, hsc, hcs, hgc] <;> omega

/-- Counting a property of (letter, final classification) pairs can ignore
an intermediate annotation zipped between them. -/
theorem countP_zip_zip {β : Type} (f : β → Pair → Bool) :
    ∀ (gs : List β) (ps rs : List Pair), rs.length ≤ (gs.zip ps).length →
      ((gs.zip ps).zip rs).countP (fun y => f y.1.1 y.2) =
        (gs.zip rs).countP (fun y => f y.1 y.2)
  | [], ps, rs, _ => by simp
  | g :: gs, [], rs, h => by
    simp only [List.zip_nil_right, List.length_nil, Nat.le_zero, List.length_eq_zero] at h
    subst h
    simp
  | g :: gs, p :: ps, [], _ => by simp
  | g :: gs, p :: ps, r :: rs, h => by
    simp only [List.zip_cons_cons, List.countP_cons]
    rw [countP_zip_zip f gs ps rs (by simpa using h)]

/-- C10: for every secret and guess of equal length and every letter `c`,
the number of positions holding `c` in the guess that the scorer marks
Exact or Partial is at most the number of occurrences of `c` in the
secret. -/
theorem score_letter_budget (secret guess : List α)
    (h : secret.length = guess.length) (c : α) :
    (guess.zip (score secret guess)).countP (fun y => decide (y.1 = c ∧ y.2 ≠ Pair.miss)) ≤
      secret.count c := by
  unfold score
  have hlen : (pass2 (pass1Letters secret guess) (guess.zip (pass1Pairs secret guess))).length ≤
      (guess.zip (pass1Pairs secret guess)).length := by
    rw [pass2_length]
  rw [← countP_zip_zip (fun g r => decide (g = c ∧ r ≠ Pair.miss)) guess
    (pass1Pairs secret guess) _ hlen]
  have hp : ∀ x ∈ guess.zip (pass1Pairs secret guess), x.2 ≠ Pair.partialMatch := by
    intro x hx
    rcases pass1Pairs_exact_or_miss secret guess x.2 (List.of_mem_zip hx).2 with h2 | h2 <;>
      simp [h2]
  exact le_trans (pass2_hit_bound c (pass1Letters secret guess) _ hp)
    (pass1_count_bound c secret guess)

/-- Witness for C10 at secret "ALLOY", guess "LLLLL", letter L. -/
theorem score_letter_budget_witness :
    (("LLLLL".toList).zip (score ("ALLOY".toList) ("LLLLL".toList))).countP
        (fun y => decide (y.1 = 'L' ∧ y.2 ≠ Pair.miss)) ≤
      ("ALLOY".toList).count 'L' :=
  score_letter_budget ("ALLOY".toList) ("LLLLL".toList) rfl 'L'

end CountTheorems

section LoaderTheorems

/-- `List.contains` on our word sets is decidable membership. -/
theorem contains_eq_mem (s : List (List Char)) (w : List Char) :
    s.contains w = decide (w ∈ s) := by
  simp [List.contains]

/-- Membership survives the loader's set insert. -/
theorem mem_insertW_of_mem {x w : List Char} {s : List (List Char)} (h : x ∈ s) :
    x ∈ insertW w s := by
  unfold insertW
  split
  · exact h
  · exact List.mem_cons_of_mem _ h

/-- The inserted word is a member of the loader's set afterwards. -/
theorem mem_insertW_self (w : List Char) (s : List (List Char)) : w ∈ insertW w s := by
  unfold insertW
  split
  · next hc =>
    rw [contains_eq_mem] at hc
    exact of_decide_eq_true hc
  · exact List.mem_cons_self _ _

/-- A word accepted by the eligibility filter is not blocklisted after
rot13 (the first conjunct of the filter). -/
theorem eligible_not_blocklisted {len : Nat} {accented : Bool} {aw : List (List Char)}
    {w : List Char} (h : eligible len accented aw w = true) :
    rot13upper w ∉ offensiveWords := by
  unfold eligible at h
  simp only [Bool.and_eq_true] at h
  have h1 := h.1.1.1.1.1.1.1
  rw [Bool.not_eq_true', contains_eq_mem, decide_eq_false_iff_not] at h1
  exact h1

/-- A word whose last character is D, R, S or Y and whose form with that
character removed is already in the word set is rejected by the
eligibility filter. -/
theorem eligible_false_of_suffix1 {len : Nat} {accented : Bool} {aw : List (List Char)}
    {w : List Char} (hsuf : lastChars 1 w ∈ [['D'], ['R'], ['S'], ['Y']])
    (hroot : dropLastChars 1 w ∈ aw) :
    eligible len accented aw w = false := by
  unfold eligible
  have hs : [['D'], ['R'], ['S'], ['Y']].contains (lastChars 1 w) = true := by
    rw [contains_eq_mem]
    exact decide_eq_true hsuf
  have hr : aw.contains (dropLastChars 1 w) = true := by
    rw [contains_eq_mem]
    exact decide_eq_true hroot
  rw [hs, hr]
  simp

/-- Any per-state property preserved by one loop-body iteration is
preserved by the whole load loop: a decodable line runs the body on its
own text, and an undecodable line reruns the body on the stale value of
the `word` variable (or fails, in which case the loop does not return a
state at all). -/
theorem processLines_preserve (len : Nat) (accented : Bool) (P : LoadState → Prop)
    (hstep : ∀ st w, P st → P (processWord len accented st w)) :
    ∀ (ls : List (Option (List Char))) (st st2 : LoadState),
      processLines len accented st ls = .ok st2 → P st → P st2 := by
  intro ls
  induction ls with
  | nil =>
    intro st st2 h hP
    simp only [processLines] at h
    cases h
    exact hP
  | cons l ls ih =>
    intro st st2 h hP
    cases l with
    | some s =>
      simp only [processLines, lineStep] at h
      exact ih _ st2 h (hstep st s hP)
    | none =>
      cases hw : st.word with
      | none =>
        simp only [processLines, lineStep, hw] at h
        cases h
      | some wv =>
        simp only [processLines, lineStep, hw] at h
        exact ih _ st2 h (hstep st wv hP)

/-- A successful `loadWords` is exactly a successful line loop whose final
pool is nonempty. -/
theorem loadWords_ok_processLines {len : Nat} {accented : Bool}
    {lines : List (Option (List Char))} {st : LoadState}
    (h : loadWords len accented lines = .ok st) :
    processLines len accented initState lines = .ok st := by
  unfold loadWords at h
  cases hp : processLines len accented initState lines with
  | error e => rw [hp] at h; cases h
  | ok st3 =>
    rw [hp] at h
    dsimp only at h
    by_cases he : st3.words.isEmpty = true
    · rw [if_pos he] at h
      cases h
    · rw [if_neg he] at h
      cases h
      rfl

/-- C9: every word of the playable pool is also a member of
`self._all_words`; the secret word drawn for a round therefore always
passes the known-word membership check applied to submitted guesses
(`guessed not in self._all_words` in `_play_round`). -/
theorem pool_subset_allWords (len : Nat) (accented : Bool)
    (lines : List (Option (List Char))) (st : LoadState)
    (h : loadWords len accented lines = .ok st) :
    ∀ w ∈ st.words, w ∈ st.allWords := by
  refine processLines_preserve len accented (fun s => ∀ x ∈ s.words, x ∈ s.allWords)
    ?_ lines initState st (loadWords_ok_processLines h) ?_
  · intro s w hP
    unfold processWord checkAndAdd
    split
    · intro x hx
      exact mem_insertW_of_mem (hP x hx)
    · split
      · intro x hx
        rcases List.mem_append.mp hx with hx2 | hx2
        · exact mem_insertW_of_mem (hP x hx2)
        · have hx3 : x = normalize w := by simpa using hx2
          subst hx3
          exact mem_insertW_self _ _
      · intro x hx
        exact mem_insertW_of_mem (hP x hx)
  · intro x hx
    simp [initState] at hx

/-- Witness for C9 on the one-line dictionary "apple". -/
theorem pool_subset_allWords_witness : ("APPLE".toList) ∈ appleState.allWords :=
  pool_subset_allWords 5 false [some ("apple".toList)] appleState rfl
    ("APPLE".toList) (by simp [appleState])

/-- C7: no word of the playable pool rot13-encodes (uppercased) to a
member of the obfuscated blocklist; equivalently, a blocklisted token
never appears in the playable pool, whatever its casing in the source
file, since pool entries are the uppercased source words. -/
theorem pool_not_blocklisted (len : Nat) (accented : Bool)
    (lines : List (Option (List Char))) (st : LoadState)
    (h : loadWords len accented lines = .ok st) :
    ∀ w ∈ st.words, rot13upper w ∉ offensiveWords := by
  refine processLines_preserve len accented
    (fun s => ∀ x ∈ s.words, rot13upper x ∉ offensiveWords)
    ?_ lines initState st (loadWords_ok_processLines h) ?_
  · intro s w hP
    unfold processWord checkAndAdd
    split
    · exact hP
    · split
      · next helig =>
        intro x hx
        rcases List.mem_append.mp hx with hx2 | hx2
        · exact hP x hx2
        · have hx3 : x = normalize w := by simpa using hx2
          subst hx3
          exact eligible_not_blocklisted helig
      · exact hP
  · intro x hx
    simp [initState] at hx

/-- Witness for C7 on the one-line dictionary "apple". -/
theorem pool_not_blocklisted_witness : rot13upper ("APPLE".toList) ∉ offensiveWords :=
  pool_not_blocklisted 5 false [some ("apple".toList)] appleState rfl
    ("APPLE".toList) (by simp [appleState])

/-- C6: when the line loop completes, an empty surviving pool makes the
load fail with the empty-pool error (the `ValueError` raised in `__init__`
before the game loop can be entered), and a nonempty surviving pool makes
the load succeed. -/
theorem load_fails_iff_empty_pool (len : Nat) (accented : Bool)
    (lines : List (Option (List Char))) (st : LoadState)
    (h : processLines len accented initState lines = .ok st) :
    (st.words = [] → loadWords len accented lines = .error LoadError.emptyPool) ∧
    (st.words ≠ [] → loadWords len accented lines = .ok st) := by
  constructor
  · intro he
    unfold loadWords
    rw [h]
    dsimp only
    rw [if_pos (by simp [he])]
  · intro hne
    unfold loadWords
    rw [h]
    dsimp only
    rw [if_neg (by simp [hne])]

/-- Witness for C6 on the one-line dictionary "apple". -/
theorem load_fails_iff_empty_pool_witness :
    loadWords 5 false [some ("apple".toList)] = .ok appleState :=
  (load_fails_iff_empty_pool 5 false [some ("apple".toList)] appleState rfl).2
    (by simp [appleState])

/-- C3 fails on the code: the `except UnicodeDecodeError: pass` clause
neither rebinds `word` nor skips to the next line, so on a dictionary
whose first line is undecodable the loop body reads the never-assigned
`word` variable and the load crashes (`UnboundLocalError`) instead of
skipping the line and loading the rest. -/
theorem undecodable_first_line_crashes :
    loadWords 5 false [none, some ("apple".toList)] = .error LoadError.nameError := by
  rfl

/-- C4 counterexample: in the dictionary "cats", "cat" (target length 4)
the root CAT appears in the word list, only on a later line than CATS, and
CATS — otherwise eligible, last character S, root present in the full word
set — is nevertheless kept in the playable pool: the heuristics are
evaluated against the words seen so far, not against the full word set. -/
theorem inflection_after_root_not_excluded :
    loadWords 4 false [some ("cats".toList), some ("cat".toList)] = .ok catsState ∧
      ("CATS".toList) ∈ catsState.words ∧
      ("CAT".toList) ∈ catsState.allWords ∧
      lastChars 1 ("CATS".toList) = ['S'] ∧
      normalize ("cat".toList) = dropLastChars 1 ("CATS".toList) ∧
      normalize ("cats".toList) = ("CATS".toList) := by
  refine ⟨rfl, ?_, ?_, rfl, rfl, rfl⟩
  · simp [catsState]
  · simp [catsState]

/-- The word set only grows across a loop iteration. -/
theorem processWord_allWords_mono (len : Nat) (accented : Bool) (st : LoadState)
    (w x : List Char) (h : x ∈ st.allWords) :
    x ∈ (processWord len accented st w).allWords := by
  unfold processWord checkAndAdd
  split
  · exact mem_insertW_of_mem h
  · split
    · exact mem_insertW_of_mem h
    · exact mem_insertW_of_mem h

/-- After processing a line, its normalised form is in the word set. -/
theorem processWord_mem_allWords (len : Nat) (accented : Bool) (st : LoadState)
    (w : List Char) : normalize w ∈ (processWord len accented st w).allWords := by
  unfold processWord checkAndAdd
  split
  · exact mem_insertW_self _ _
  · split
    · exact mem_insertW_self _ _
    · exact mem_insertW_self _ _

/-- Every decodable line of a successfully processed prefix leaves its
normalised form in the resulting word set. -/
theorem processLines_mem_allWords (len : Nat) (accented : Bool) :
    ∀ (ls : List (Option (List Char))) (st st2 : LoadState) (r : List Char),
      processLines len accented st ls = .ok st2 → some r ∈ ls →
      normalize r ∈ st2.allWords := by
  intro ls
  induction ls with
  | nil =>
    intro st st2 r h hr
    simp at hr
  | cons l ls ih =>
    intro st st2 r h hr
    rcases List.mem_cons.mp hr with hr2 | hr2
    · subst hr2
      simp only [processLines, lineStep] at h
      exact processLines_preserve len accented (fun s => normalize r ∈ s.allWords)
        (fun s w hx => processWord_allWords_mono len accented s w _ hx)
        ls _ st2 h (processWord_mem_allWords len accented st r)
    · cases l with
      | some s =>
        simp only [processLines, lineStep] at h
        exact ih _ st2 r h hr2
      | none =>
        cases hw : st.word with
        | none =>
          simp only [processLines, lineStep, hw] at h
          cases h
        | some wv =>
          simp only [processLines, lineStep, hw] at h
          exact ih _ st2 r h hr2

/-- C4 (amended): the inflection heuristics consult the word set
accumulated so far. When a decodable line already processed normalises to
the current word's form with its last character removed, and that last
character is D, R, S or Y, processing the current line appends nothing to
the playable pool; a root that only appears on a later line gives no such
guarantee (see the counterexample). -/
theorem inflection_excluded_when_root_seen (len : Nat) (accented : Bool)
    (pre : List (Option (List Char))) (st : LoadState) (r w : List Char)
    (hpre : processLines len accented initState pre = .ok st)
    (hr : some r ∈ pre)
    (hroot : normalize r = dropLastChars 1 (normalize w))
    (hsuf : lastChars 1 (normalize w) ∈ [['D'], ['R'], ['S'], ['Y']]) :
    (processWord len accented st w).words = st.words := by
  have hmem : dropLastChars 1 (normalize w) ∈ st.allWords := by
    rw [← hroot]
    exact processLines_mem_allWords len accented pre initState st r hpre hr
  have hel : eligible len accented (insertW (normalize w) st.allWords) (normalize w) = false :=
    eligible_false_of_suffix1 hsuf (mem_insertW_of_mem hmem)
  unfold processWord checkAndAdd
  split
  · rfl
  · simp [hel]

/-- Witness for the amended C4: with the root "cat" on an earlier line,
processing "cats" with target length 4 adds nothing to the pool. -/
theorem inflection_excluded_when_root_seen_witness :
    (processWord 4 false catState ("cats".toList)).words = catState.words :=
  inflection_excluded_when_root_seen 4 false [some ("cat".toList)] catState
    ("cat".toList) ("cats".toList) rfl (by decide) rfl (by decide)

end LoaderTheorems

section InfoTheorems

variable {α : Type} [DecidableEq α]

/-- No remembered status outranks Exact. -/
theorem infoRank_le_three (o : Option Pair) : infoRank o ≤ 3 := by
  rcases o with _ | p
  · simp [infoRank]
  · rcases p <;> simp [infoRank]

/-- Rank three is exactly the Exact status. -/
theorem infoRank_eq_three_iff (o : Option Pair) : infoRank o = 3 ↔ o = some Pair.exact := by
  rcases o with _ | p
  · simp [infoRank]
  · rcases p <;> simp [infoRank]

/-- One `info_letters` update, characterised: the guessed letter ends up
with the precedence-maximum of its old status and the new classification,
and every other letter keeps its status. -/
theorem infoUpdate_eq (info : α → Option Pair) (g : α) (p : Pair) (x : α) :
    infoUpdate info g p x =
      if x = g then
        (if infoRank (some p) ≤ infoRank (info g) then info g else some p)
      else info x := by
  unfold infoUpdate
  by_cases hx : x = g
  · subst hx
    rcases hgv : info x with _ | q
    · rcases p <;> simp [hgv, infoRank]
    · rcases q <;> rcases p <;> simp [hgv, infoRank]
  · rcases hgv : info g with _ | q
    · rcases p <;> simp [hx, hgv, infoRank]
    · rcases q <;> rcases p <;> simp [hx, hgv, infoRank]

/-- A single update never lowers a letter's rank. -/
theorem infoUpdate_rank_le (info : α → Option Pair) (g : α) (p : Pair) (x : α) :
    infoRank (info x) ≤ infoRank (infoUpdate info g p x) := by
  rw [infoUpdate_eq]
  by_cases hx : x = g
  · subst hx
    by_cases hle : infoRank (some p) ≤ infoRank (info x)
    · simp [hle]
    · simp [hle]
      omega
  · simp [hx]

/-- No sequence of updates lowers a letter's rank. -/
theorem infoRuns_rank_le (updates : List (α × Pair)) (info : α → Option Pair) (x : α) :
    infoRank (info x) ≤ infoRank (infoRuns info updates x) := by
  induction updates generalizing info with
  | nil => exact Nat.le_refl _
  | cons u us ih =>
    have h1 := infoUpdate_rank_le info u.1 u.2 x
    have h2 := ih (infoUpdate info u.1 u.2)
    have h3 : infoRuns info (u :: us) = infoRuns (infoUpdate info u.1 u.2) us := rfl
    rw [h3]
    omega

/-- A letter once recorded Exact keeps that status through any further
updates. -/
theorem infoRuns_exact_preserved (updates : List (α × Pair)) (info : α → Option Pair)
    (x : α) (hx : info x = some Pair.exact) :
    infoRuns info updates x = some Pair.exact := by
  have h := infoRuns_rank_le updates info x
  rw [hx] at h
  have h3 := infoRank_le_three (infoRuns info updates x)
  rw [← infoRank_eq_three_iff]
  have h4 : infoRank (some Pair.exact) = 3 := rfl
  rw [h4] at h
  omega

/-- C8: across any sequence of scored positions in a round, the cumulative
per-letter status map of `_play_round` upgrades with precedence
Exact > Partial > Miss > unknown and never downgrades: the rank of a
letter's remembered status is monotone, a letter recorded Exact stays
Exact, and each single update stores exactly the precedence-maximum of the
old status and the new classification at the guessed letter, leaving every
other letter unchanged. -/
theorem info_letters_monotone (info : α → Option Pair) (updates : List (α × Pair)) (x : α) :
    infoRank (info x) ≤ infoRank (infoRuns info updates x) ∧
    (info x = some Pair.exact → infoRuns info updates x = some Pair.exact) ∧
    (∀ g p y, infoUpdate info g p y =
      if y = g then
        (if infoRank (some p) ≤ infoRank (info g) then info g else some p)
      else info y) :=
  ⟨infoRuns_rank_le updates info x,
   fun hx => infoRuns_exact_preserved updates info x hx,
   fun g p y => infoUpdate_eq info g p y⟩

/-- Witness for C8: a letter recorded Exact keeps that status across a
later Miss update for the same letter. -/
theorem info_letters_monotone_witness :
    infoRuns (fun _ : Char => some Pair.exact) [('A', Pair.miss)] 'A' = some Pair.exact :=
  (info_letters_monotone (fun _ => some Pair.exact) [('A', Pair.miss)] 'A').2.1 rfl

end InfoTheorems

end WordGuess
